import Mathlib

/-!
Verification of the obra-abc migration pipeline.

This file gives a shallow embedding of the content-migration scripts:
the site crawler (scripts/crawl-site.js), the content processor
(process-content.js: createSlug, isValidContentPage, determineContentType,
cleanTitle, processPage), the image downloader (optimize-images.js:
createSafeFilename, processImage) and the image transcoder
(optimize-article-images.js: optimizeWithSharp), together with theorems
settling the specification claims about them.

Strings are modelled as Lean strings / lists of characters.  JavaScript
string primitives (toLowerCase, replace with string or regex patterns,
trim, includes, endsWith) are embedded as executable functions on
List Char.  toLowerCase is modelled character-wise with the ASCII case
mapping; this agrees with JavaScript on every input relevant below
because every non-ASCII character is subsequently replaced or compared
unchanged by the surrounding code.
-/

namespace ObraAbc

/-- dropWhile never lengthens a list (termination helper). -/
theorem dropWhile_length_le (p : α → Bool) :
    ∀ l : List α, (l.dropWhile p).length ≤ l.length
  | [] => Nat.le_refl _
  | a :: t => by
    rw [List.dropWhile_cons]
    split
    · exact Nat.le_trans (dropWhile_length_le p t) (Nat.le_succ _)
    · exact Nat.le_refl _

/-- Lowercase ASCII letters and digits (the slug characters that are not
hyphens). -/
def isLowerAlnum (c : Char) : Bool :=
  (('a' ≤ c && c ≤ 'z') || ('0' ≤ c && c ≤ '9'))

/-- The character class kept by createSlug's regex [^a-z0-9-]:
lowercase ASCII letters, digits, and the hyphen. -/
def isSlugKeep (c : Char) : Bool :=
  isLowerAlnum c || c = '-'

/-- An alphanumeric character in the sense relevant to slugs: one that the
ASCII lower-case map sends into [a-z0-9]. -/
def isAlnumChar (c : Char) : Bool :=
  isLowerAlnum c.toLower

/-- JavaScript str.replace(pat, "") with a string pattern: remove the first
occurrence of pat, if any. -/
def replaceFirst (pat : List Char) : List Char → List Char
  | [] => []
  | c :: rest =>
    if pat.isPrefixOf (c :: rest) then (c :: rest).drop pat.length
    else c :: replaceFirst pat rest

/-- Remove the longest suffix of characters satisfying p
(the right-hand side of trimming). -/
def dropTrailing (p : Char → Bool) (l : List Char) : List Char :=
  (l.reverse.dropWhile p).reverse

/-- The regex replace(/^\/+|\/+$/g, ""): strip leading and trailing runs
of slashes. -/
def stripSlashes (l : List Char) : List Char :=
  dropTrailing (fun c => c = '/') (l.dropWhile (fun c => c = '/'))

/-- The regex replace(/[^a-z0-9-]/g, "-") applied character-wise. -/
def cleanSlugChar (c : Char) : Char :=
  if isSlugKeep c then c else '-'

/-- The regex replace of the pattern "-+" (global) with "-": collapse
every run of hyphens to a single hyphen (a hyphen directly followed by
another hyphen is dropped). -/
def collapseDash : List Char → List Char
  | [] => []
  | [c] => [c]
  | a :: b :: rest =>
    if a = '-' && b = '-' then collapseDash (b :: rest)
    else a :: collapseDash (b :: rest)

/-- The regex replace(/^-|-$/g, ""): remove one leading hyphen, if any. -/
def dropOneLeadDash : List Char → List Char
  | [] => []
  | c :: t => if c = '-' then t else c :: t

/-- The regex replace(/^-|-$/g, ""): remove one trailing hyphen, if any. -/
def dropOneTrailDash (l : List Char) : List Char :=
  (dropOneLeadDash l.reverse).reverse

/-- The site base URL hard-coded in process-content.js. -/
def baseUrl : List Char := "https://obraabc.org".data

/-- The page URL with the base URL and surrounding slashes stripped: the
raw slug before the "index" check and the character cleanup
(process-content.js, createSlug lines 99-102). -/
def strippedPath (url : String) : List Char :=
  stripSlashes (replaceFirst baseUrl url.data)

/-- createSlug from process-content.js: strip the base URL and surrounding
slashes; "index" when empty; otherwise lower-case, replace characters
outside [a-z0-9-] with hyphens, collapse hyphen runs, and trim one
leading and one trailing hyphen. -/
def createSlug (url : String) : String :=
  let slug := strippedPath url
  if slug = [] then "index"
  else
    String.mk (dropOneTrailDash (dropOneLeadDash
      (collapseDash ((slug.map Char.toLower).map cleanSlugChar))))

/-- The slug transformation exactly as the specification words it:
"replace every run of non-alphanumeric-non-hyphen characters with a
single hyphen" (existing hyphens are kept as-is, with no collapsing
of hyphen runs). -/
def specJunkRuns : List Char → List Char
  | [] => []
  | [c] => if isSlugKeep c then [c] else ['-']
  | a :: b :: rest =>
    if isSlugKeep a then a :: specJunkRuns (b :: rest)
    else if isSlugKeep b then '-' :: specJunkRuns (b :: rest)
    else specJunkRuns (b :: rest)

/-- Slug derivation as described by the specification sentence behind
claim C5 (for comparison against createSlug): strip base URL and
slashes, "index" when empty, else lower-case, replace every run of
non-alphanumeric-non-hyphen characters with a single hyphen, and trim
leading/trailing hyphens. -/
def slugSpecDescription (url : String) : String :=
  let slug := strippedPath url
  if slug = [] then "index"
  else
    String.mk (dropTrailing (fun c => c = '-')
      ((specJunkRuns (slug.map Char.toLower)).dropWhile (fun c => c = '-')))

/-- The amended slug transformation: replace every run of characters that
are non-alphanumeric or hyphens with a single hyphen (so pre-existing
hyphen runs also collapse), then trim leading/trailing hyphens. -/
def amendedRuns : List Char → List Char
  | [] => []
  | [c] => if isLowerAlnum c then [c] else ['-']
  | a :: b :: rest =>
    if isLowerAlnum a then a :: amendedRuns (b :: rest)
    else if isLowerAlnum b then '-' :: amendedRuns (b :: rest)
    else amendedRuns (b :: rest)

/-- Slug derivation as amended for claim C5: like the specification's
description, but a run of characters that are non-alphanumeric or
hyphens (not merely non-alphanumeric-non-hyphen) becomes a single
hyphen. -/
def amendedSlug (url : String) : String :=
  let slug := strippedPath url
  if slug = [] then "index"
  else
    String.mk (dropTrailing (fun c => c = '-')
      ((amendedRuns (slug.map Char.toLower)).dropWhile (fun c => c = '-')))

/-- Adjacent characters in the output of amendedRuns are never both
hyphens. -/
def NoTwoDashes (a b : Char) : Prop := ¬(a = '-' ∧ b = '-')

/-- Whitespace as matched by the regex class \s and by trim on the titles
handled here (titles are modelled over the ASCII whitespace characters). -/
def isWs (c : Char) : Bool := c = ' ' || c = '\t' || c = '\n' || c = '\r'

/-- The regex replace of the pattern "\s*X\s*.*$" (X a separator
character) with the empty string: when the separator occurs, everything
from its first occurrence to the end is removed, together with the run
of whitespace immediately before it; otherwise the string is unchanged.
(JavaScript's "." does not cross newlines; titles are modelled as
single-line strings.) -/
def stripSepToEnd (sep : Char) (s : List Char) : List Char :=
  if sep ∈ s then dropTrailing isWs (s.takeWhile (fun c => c ≠ sep)) else s

/-- JavaScript String.prototype.trim (over the modelled whitespace). -/
def jsTrim (s : List Char) : List Char :=
  dropTrailing isWs (s.dropWhile isWs)

/-- cleanTitle from process-content.js: remove everything from the first
"|" (site-name separator), then everything from the first "-" (tagline
separator), then trim the ends. -/
def cleanTitle (title : String) : String :=
  String.mk (jsTrim (stripSepToEnd '-' (stripSepToEnd '|' title.data)))

/-- JavaScript String.prototype.includes, on character lists. -/
def jsIncludes (l pat : List Char) : Bool :=
  l.tails.any (fun t => pat.isPrefixOf t)

/-- JavaScript String.prototype.endsWith, on character lists. -/
def jsEndsWith (l pat : List Char) : Bool :=
  pat.isSuffixOf l

/-- Character-wise ASCII lower-casing (JavaScript toLowerCase restricted
to the characters the classifier compares). -/
def jsToLower (s : String) : List Char :=
  s.data.map Char.toLower

/-- determineContentType from process-content.js: ordered keyword tests on
the lower-cased URL and title; the first matching rule decides the
category, the fallback is "page". -/
def determineContentType (url title : String) : String :=
  let u := jsToLower url
  let t := jsToLower title
  if jsIncludes u "/blog/".data || jsIncludes u "/news/".data ||
      jsIncludes u "/artigo/".data || jsIncludes u "/post/".data ||
      jsIncludes t "artigo".data then "article"
  else if jsIncludes u "/servico".data || jsIncludes u "/service".data ||
      jsIncludes t "serviço".data then "service"
  else if jsIncludes u "/sobre".data || jsIncludes u "/about".data ||
      jsIncludes t "sobre".data then "about"
  else if jsIncludes u "/contato".data || jsIncludes u "/contact".data ||
      jsIncludes t "contacto".data then "contact"
  else if jsIncludes u "/recurso".data || jsIncludes u "/resource".data ||
      jsIncludes u "/documento".data then "resource"
  else "page"

/-- The asset file extensions excluded by isValidContentPage. -/
def assetExtensions : List String :=
  [".jpg", ".jpeg", ".png", ".gif", ".webp", ".svg", ".ico",
   ".pdf", ".doc", ".docx", ".xls", ".xlsx", ".ppt", ".pptx",
   ".zip", ".rar", ".tar", ".gz",
   ".mp3", ".mp4", ".avi", ".mov", ".wmv",
   ".css", ".js", ".xml", ".json"]

/-- The technical-page URL patterns skipped by isValidContentPage. -/
def skipPatterns : List String :=
  ["/feed/", "/rss/", "/sitemap", "/robots.txt",
   "/wp-admin/", "/wp-includes/", "/wp-content/plugins/",
   "/wp-json/", "?rest_route=",
   "?preview=", "?p=", "?attachment_id="]

/-- One step-bounded pass of the regex replace of "<[^>]+>" (global) with
the empty string: drop every maximal "<"..">" group with a non-empty
inside; a "<" with no matching ">" (or immediately followed by ">") is
kept as text.  The fuel argument (instantiated with the list length)
only makes the recursion structural. -/
def stripTagsF : Nat → List Char → List Char
  | 0, l => l
  | _ + 1, [] => []
  | fuel + 1, c :: rest =>
    if c = '<' then
      match rest.dropWhile (fun d => d ≠ '>') with
      | '>' :: after =>
        if (rest.takeWhile (fun d => d ≠ '>')).isEmpty then
          '<' :: stripTagsF fuel rest
        else stripTagsF fuel after
      | _ => '<' :: stripTagsF fuel rest
    else c :: stripTagsF fuel rest

/-- The regex replace of "<[^>]+>" (global) with the empty string. -/
def stripTagsJs (s : String) : List Char :=
  stripTagsF s.data.length s.data

/-- The title pattern for bare dimensions like "1920x1080". -/
def dimsTitle (l : List Char) : Bool :=
  let ds := l.takeWhile Char.isDigit
  !ds.isEmpty &&
    (match l.dropWhile Char.isDigit with
     | 'x' :: rest => !rest.isEmpty && rest.all Char.isDigit
     | _ => false)

/-- The title pattern for a trailing image/document extension
(case-insensitive; applied to the lower-cased candidate). -/
def extTitle (l : List Char) : Bool :=
  [".jpg", ".jpeg", ".png", ".gif", ".pdf"].any (fun e => jsEndsWith l e.data)

/-- The camera-filename title prefix pattern img_ followed by a digit
(case-insensitive; applied to the lower-cased candidate). -/
def imgTitle (l : List Char) : Bool :=
  "img_".data.isPrefixOf l &&
    (match l.drop 4 with
     | d :: _ => d.isDigit
     | [] => false)

/-- The localized generic-photo-name pattern "imagem" followed by digits
(case-insensitive; applied to the lower-cased candidate). -/
def imagemTitle (l : List Char) : Bool :=
  "imagem".data.isPrefixOf l &&
    (let rest := l.drop 6
     !rest.isEmpty && rest.all Char.isDigit)

/-- The asset-like-title test of isValidContentPage: each pattern is tried
on the lower-cased title and on the raw title (for the case-insensitive
patterns the two tests coincide on the lower-cased form). -/
def hasAssetTitle (titleRaw : String) : Bool :=
  let tl := jsToLower titleRaw
  dimsTitle tl || dimsTitle titleRaw.data ||
    extTitle tl || imgTitle tl || imagemTitle tl

/-- isValidContentPage from process-content.js: the content-worthiness
exclusion predicate.  contentMain is the page's content.main field when
present (an absent field and an empty string both yield empty content
text, as in the source's truthiness test). -/
def isValidContentPage (urlS titleS : String) (contentMain : Option String) :
    Bool :=
  let url := jsToLower urlS
  let hasAssetExtension := assetExtensions.any (fun e => jsEndsWith url e.data)
  if hasAssetExtension then false
  else if jsIncludes url "/wp-content/uploads/".data then false
  else if skipPatterns.any (fun p => jsIncludes url p.data) then false
  else
    let contentText :=
      match contentMain with
      | some m => jsTrim (stripTagsJs m)
      | none => []
    if contentText.length < 50 && hasAssetExtension then false
    else if hasAssetTitle titleS then false
    else true

/-! ### The crawler (scripts/crawl-site.js)

URLs are abstracted as natural numbers; the headless-browser rendering of
one page is an oracle from URL to an optional fetch result (None models a
navigation error/timeout, Some carries the extracted link targets and
image URLs), and the same-origin test (hostname comparison, with
malformed URLs treated as external) is an oracle predicate.  The
Promise.allSettled batches of five run over disjoint URLs and are awaited
before the next batch starts; their effect on the accumulated state is
the induced sequential fold. -/

/-- The outcome of rendering one page: extracted link targets and image
URLs on success. -/
structure PageFetch where
  links : List Nat
  images : List Nat

/-- The crawler's accumulated state: visited set, extracted page records
(keyed by URL), discovered same-origin links, discovered images, and
the error list. -/
structure CrawlState where
  visitedUrls : List Nat
  pagesData : List Nat
  internalLinks : List Nat
  images : List Nat
  errors : List Nat

/-- The state at the start of crawlSite. -/
def initialCrawlState : CrawlState := ⟨[], [], [], [], []⟩

/-- crawlPage: return early when the URL was already visited; otherwise
mark it visited before fetching; on success push the page record and
accumulate the same-origin links and images; on failure push the error
and continue. -/
def crawlPage (fetch : Nat → Option PageFetch) (isInternal : Nat → Bool)
    (s : CrawlState) (url : Nat) : CrawlState :=
  if url ∈ s.visitedUrls then s
  else
    match fetch url with
    | none =>
      { s with visitedUrls := url :: s.visitedUrls,
               errors := s.errors ++ [url] }
    | some pf =>
      { s with visitedUrls := url :: s.visitedUrls,
               pagesData := s.pagesData ++ [url],
               internalLinks := s.internalLinks ++ pf.links.filter isInternal,
               images := s.images ++ pf.images }

/-- The frontier: discovered same-origin links not yet visited. -/
def frontier (s : CrawlState) : List Nat :=
  s.internalLinks.filter (fun u => !s.visitedUrls.contains u)

/-- One round of the while-loop body: crawl every URL of the current
frontier. -/
def crawlBatch (fetch : Nat → Option PageFetch) (isInternal : Nat → Bool)
    (s : CrawlState) (batch : List Nat) : CrawlState :=
  batch.foldl (crawlPage fetch isInternal) s

/-- The while-loop of crawlSite: recompute the frontier and crawl it until
it is empty.  The fuel argument only bounds the number of rounds: any
fuel of at least the number of distinct same-origin URLs reaches the
empty frontier, as proved below. -/
def crawlLoop (fetch : Nat → Option PageFetch) (isInternal : Nat → Bool) :
    Nat → CrawlState → CrawlState
  | 0, s => s
  | fuel + 1, s =>
    if (frontier s).isEmpty then s
    else crawlLoop fetch isInternal fuel
      (crawlBatch fetch isInternal s (frontier s))

/-- crawlSite: crawl the start URL, then run the frontier loop. -/
def crawlSite (fetch : Nat → Option PageFetch) (isInternal : Nat → Bool)
    (base : Nat) (fuel : Nat) : CrawlState :=
  crawlLoop fetch isInternal fuel
    (crawlPage fetch isInternal initialCrawlState base)

/-- Reachability in the same-origin link graph: the start URL, plus every
same-origin link of a successfully fetched reachable page. -/
inductive Reach (fetch : Nat → Option PageFetch) (isInternal : Nat → Bool)
    (base : Nat) : Nat → Prop
  | base : Reach fetch isInternal base base
  | step {u l : Nat} {pf : PageFetch} : Reach fetch isInternal base u →
      fetch u = some pf → l ∈ pf.links → isInternal l = true →
      Reach fetch isInternal base l

/-- The crawl invariant over a finite universe U of same-origin URLs:
no URL is recorded twice in the visited list, every discovered link
lies in U, and the same-origin links of every visited, successfully
fetched page have been accumulated. -/
def CrawlInv (fetch : Nat → Option PageFetch) (isInternal : Nat → Bool)
    (U : Finset Nat) (s : CrawlState) : Prop :=
  s.visitedUrls.Nodup ∧
  (∀ l ∈ s.internalLinks, l ∈ U) ∧
  (∀ u ∈ s.visitedUrls, ∀ pf, fetch u = some pf →
    ∀ l ∈ pf.links, isInternal l = true → l ∈ s.internalLinks)

/-- Accounting invariant of the crawl state: every URL ever marked
visited is recorded either as a page record or in the error list
(and conversely). -/
def CrawlAccounted (s : CrawlState) : Prop :=
  ∀ x, x ∈ s.visitedUrls ↔ x ∈ s.pagesData ∨ x ∈ s.errors

/-- The number of universe URLs not yet visited (the loop measure). -/
def unvisitedCount (U : Finset Nat) (s : CrawlState) : Nat :=
  (U.filter (fun u => u ∉ s.visitedUrls)).card

/-- A small concrete link graph (cyclic, with one erring page) used to
witness the crawler theorems: page 0 links to 1 and 2, page 1 links
back to 0 and to 2, fetching page 2 fails. -/
def exFetch : Nat → Option PageFetch := fun n =>
  if n = 0 then some ⟨[1, 2], [7]⟩
  else if n = 1 then some ⟨[0, 2], []⟩
  else none

/-- The same-origin predicate of the witness graph: everything internal. -/
def exInternal : Nat → Bool := fun _ => true

/-! ### The content processor (process-content.js) -/

/-- One crawled page record as consumed by processAllContent: its URL,
title, and content.main field when present. -/
structure PageData where
  url : String
  title : String
  contentMain : Option String

/-- One entry of processedPages. -/
structure ProcessedPage where
  slug : String
  type : String
  originalUrl : String

/-- The content processor's accumulated state: the processedPages list and
the log of per-page processing errors (the console.error output, the
only place processPage records a failure). -/
structure ProcState where
  processedPages : List ProcessedPage
  errorLog : List String

/-- processPage: the whole body runs in a try/catch.  The oracle ext
models extractAndCleanContent together with the frontmatter synthesis
and file write: ok when the page was written, error when any step
threw.  On error the page's URL is logged and processing continues;
on success the page is recorded with its slug and category. -/
def processPage (ext : PageData → Except String String) (s : ProcState)
    (p : PageData) : ProcState :=
  match ext p with
  | .error _ =>
    { s with errorLog := s.errorLog ++ [p.url] }
  | .ok _ =>
    { s with processedPages := s.processedPages ++
        [⟨createSlug p.url, determineContentType p.url p.title, p.url⟩] }

/-- The processedPages entry a page contributes when its extraction
succeeds. -/
def okEntry (ext : PageData → Except String String) (p : PageData) :
    Option ProcessedPage :=
  match ext p with
  | .ok _ => some ⟨createSlug p.url, determineContentType p.url p.title, p.url⟩
  | .error _ => none

/-- The error-log entry a page contributes when its extraction throws. -/
def errEntry (ext : PageData → Except String String) (p : PageData) :
    Option String :=
  match ext p with
  | .error _ => some p.url
  | .ok _ => none

/-- processAllContent: filter the crawled records through the
content-worthiness predicate, then process each page in order. -/
def processAllContent (ext : PageData → Except String String)
    (pages : List PageData) : ProcState :=
  (pages.filter (fun p => isValidContentPage p.url p.title p.contentMain)).foldl
    (processPage ext) ⟨[], []⟩

/-! ### The image downloader (optimize-images.js) -/

/-- Node path.basename: the last path component, with trailing slashes
ignored. -/
def pathBasename (p : List Char) : List Char :=
  let q := dropTrailing (fun c => c = '/') p
  (q.reverse.takeWhile (fun c => c ≠ '/')).reverse

/-- Node path.extname: the suffix of the name from its last dot; empty for
a dotless name and for a leading-dot-only name. -/
def pathExtname (name : List Char) : List Char :=
  let t := name.reverse.takeWhile (fun c => c ≠ '.')
  if t.length = name.length then []
  else if name.length = t.length + 1 then []
  else name.drop (name.length - 1 - t.length)

/-- The character class kept by createSafeFilename's regex [^a-z0-9.-]. -/
def isFileKeep (c : Char) : Bool := isLowerAlnum c || c = '.' || c = '-'

/-- The regex replace of [^a-z0-9.-] (global) with "-", character-wise. -/
def cleanFileChar (c : Char) : Char := if isFileKeep c then c else '-'

/-- createSafeFilename from optimize-images.js, with the call's Date.now()
value passed explicitly: take the basename of the URL path, default the
extension to ".jpg", lower-case and clean it, then splice the current
timestamp between base name and extension ("ensure unique filename"). -/
def createSafeFilename (pathname : List Char) (now : Nat) : String :=
  let f0 := pathBasename pathname
  let f1 := if (pathExtname f0).isEmpty then f0 ++ ".jpg".data else f0
  let f2 := dropOneTrailDash (dropOneLeadDash
    (collapseDash ((f1.map Char.toLower).map cleanFileChar)))
  let ext := pathExtname f2
  let base := f2.take (f2.length - ext.length)
  String.mk (base ++ "-".data ++ (Nat.repr now).data ++ ext)

/-- The list tail starting right after the first occurrence of marker, if
any. -/
def afterMarker (marker : List Char) : List Char → Option (List Char)
  | [] => none
  | c :: rest =>
    if marker.isPrefixOf (c :: rest) then some ((c :: rest).drop marker.length)
    else afterMarker marker rest

/-- The pathname of an absolute http(s) URL as produced by new URL:
everything from the first slash after the scheme-and-host part up to
the query or fragment, "/" when the host is not followed by a slash;
none models the constructor throwing on a string without the scheme
separator. -/
def jsUrlPathname (u : String) : Option (List Char) :=
  match afterMarker "://".data u.data with
  | none => none
  | some hostPath =>
    let p := hostPath.dropWhile (fun c => c ≠ '/')
    let p := if p.isEmpty then "/".data else p
    some (p.takeWhile (fun c => !(c = '?' || c = '#')))

/-- One entry of the downloadedImages list; the image manifest is
generated 1:1 from these entries. -/
structure ImageEntry where
  originalUrl : String
  filename : String

/-- The image optimizer's state: the destination files present in the
output directory, the downloadedImages list and the error list. -/
structure OptState where
  files : List String
  downloadedImages : List ImageEntry
  errors : List String

/-- processImage from optimize-images.js, with the call's Date.now() value
and the network outcome (ok url - whether the HTTP download succeeds)
made explicit: skip empty and data: URLs; a malformed URL throws into
the catch and is recorded as an error; otherwise derive the destination
filename from the URL's pathname plus the timestamp, skip when that
destination file already exists, and otherwise download - on failure
the partial file is removed and the URL is recorded in the errors. -/
def processImage (ok : String → Bool) (s : OptState) (imageUrl : String)
    (now : Nat) : OptState :=
  if imageUrl = "" ∨ "data:".data.isPrefixOf imageUrl.data = true then s
  else
    match jsUrlPathname imageUrl with
    | none => { s with errors := s.errors ++ [imageUrl] }
    | some pathname =>
      let filename := createSafeFilename pathname now
      if filename ∈ s.files then s
      else if ok imageUrl then
        { s with files := s.files ++ [filename],
                 downloadedImages := s.downloadedImages ++
                   [⟨imageUrl, filename⟩] }
      else { s with errors := s.errors ++ [imageUrl] }

/-- The batched Promise.allSettled loop of optimizeAllImages, as the
induced sequential fold over (url, Date.now() at processing time)
pairs, starting from an empty output directory. -/
def processImages (ok : String → Bool) (imgs : List (String × Nat)) :
    OptState :=
  imgs.foldl (fun s ui => processImage ok s ui.1 ui.2) ⟨[], [], []⟩

/-! ### The media transcoder (optimize-article-images.js)

optimizeWithSharp iterates over CONFIG.sizes and, per size class, writes a
WebP and then a JPEG variant, each directly to its final output path via
sharp's toFile - there is no temporary file and no rename anywhere in the
script.  The external pieces are oracles: fresh t is the staleness check
shouldSkipOptimization (target t newer than the source), fail t is
whether the encode of target t throws, and srcW is the source image's
pixel width.  A failing direct write is modelled as leaving truncated
content at the destination path (no atomicity is assumed of the external
encoder). -/

/-- The contents of one output file: a completely written variant carries
its pixel width; a failed direct write leaves truncated content. -/
inductive FileContent where
  | full (width : Nat)
  | truncated
deriving DecidableEq

/-- Writing a file: the newest write at a path shadows older ones. -/
def setFile (fs : List (String × FileContent)) (p : String)
    (c : FileContent) : List (String × FileContent) :=
  (p, c) :: fs

/-- Reading a file from the modelled output directory. -/
def getFile : List (String × FileContent) → String → Option FileContent
  | [], _ => none
  | (q, c) :: rest, p => if p = q then some c else getFile rest p

/-- One emitted variant: its output name and pixel width. -/
structure Variant where
  name : String
  width : Nat
deriving DecidableEq

/-- CONFIG.sizes: the responsive size classes (width bound and name
suffix), the null width being the original-size class. -/
def sizes : List (Option Nat × String) :=
  [(some 400, "-sm"), (some 800, "-md"), (some 1200, "-lg"), (none, "")]

/-- The filename without its extension (basename(filename,
extname(filename)) for a bare file name). -/
def nameNoExt (filename : String) : String :=
  String.mk (filename.data.take
    (filename.data.length - (pathExtname filename.data).length))

/-- The eight output targets of one source file, in write order: for each
size class the WebP name and then the JPEG name, with the size class's
width bound. -/
def variantTargets (base : String) : List (Option Nat × String) :=
  sizes.flatMap (fun sz =>
    [(sz.1, base ++ (sz.2 ++ ".webp")), (sz.1, base ++ (sz.2 ++ ".jpg"))])

/-- The output width of sharp's resize(w, null, withoutEnlargement, fit
inside) on a source of width srcW; the original-size class keeps the
source width. -/
def variantWidth (srcW : Nat) : Option Nat → Nat
  | none => srcW
  | some w => min w srcW

/-- One loop iteration of optimizeWithSharp for one target: skip when the
target is newer than the source; otherwise write directly to the final
path - on an encode error the destination holds truncated content and
no variant is reported, on success the variant is written complete and
reported. -/
def sharpStep (fresh fail : String → Bool) (srcW : Nat)
    (acc : List (String × FileContent) × List Variant)
    (t : Option Nat × String) :
    List (String × FileContent) × List Variant :=
  if fresh t.2 then acc
  else if fail t.2 then (setFile acc.1 t.2 FileContent.truncated, acc.2)
  else (setFile acc.1 t.2 (FileContent.full (variantWidth srcW t.1)),
    acc.2 ++ [⟨t.2, variantWidth srcW t.1⟩])

/-- optimizeWithSharp: write the (up to) 4 x 2 variants of one source
image; returns the resulting output directory and the list of variants
generated on this run. -/
def optimizeWithSharp (fresh fail : String → Bool) (srcW : Nat)
    (fs : List (String × FileContent)) (filename : String) :
    List (String × FileContent) × List Variant :=
  (variantTargets (nameNoExt filename)).foldl
    (sharpStep fresh fail srcW) (fs, [])

/-! ### Properties of the slug character pipeline -/

theorem alnum_ne_dash {c : Char} (h : isLowerAlnum c = true) : c ≠ '-' := by
  rintro rfl
  exact absurd h (by decide)

theorem cleanSlugChar_of_alnum {c : Char} (h : isLowerAlnum c = true) :
    cleanSlugChar c = c := by
  simp [cleanSlugChar, isSlugKeep, h]

theorem cleanSlugChar_of_not_alnum {c : Char} (h : isLowerAlnum c = false) :
    cleanSlugChar c = '-' := by
  by_cases hk : isSlugKeep c = true
  · have hc : c = '-' := by simpa [isSlugKeep, h] using hk
    simp [cleanSlugChar, hk, hc]
  · simp [cleanSlugChar, hk]

/-- Collapsing hyphen runs after the character-wise cleanup is the same as
replacing every run of non-alphanumeric-or-hyphen characters by a single
hyphen. -/
theorem collapseDash_map_clean : ∀ l : List Char,
    collapseDash (l.map cleanSlugChar) = amendedRuns l
  | [] => rfl
  | [c] => by
    cases h : isLowerAlnum c
    · simp [collapseDash, amendedRuns, cleanSlugChar_of_not_alnum h, h]
    · simp [collapseDash, amendedRuns, cleanSlugChar_of_alnum h, h]
  | a :: b :: rest => by
    have ih := collapseDash_map_clean (b :: rest)
    cases ha : isLowerAlnum a
    · cases hb : isLowerAlnum b
      · simp only [List.map_cons] at ih ⊢
        rw [cleanSlugChar_of_not_alnum ha, cleanSlugChar_of_not_alnum hb] at *
        simp [collapseDash, amendedRuns, ha, hb, ih]
      · simp only [List.map_cons] at ih ⊢
        rw [cleanSlugChar_of_not_alnum ha, cleanSlugChar_of_alnum hb] at *
        have hbd : (b = '-') = False := by
          simp [alnum_ne_dash hb]
        simp [collapseDash, amendedRuns, ha, hb, hbd, ih]
    · simp only [List.map_cons] at ih ⊢
      rw [cleanSlugChar_of_alnum ha] at *
      have had : (a = '-') = False := by
        simp [alnum_ne_dash ha]
      simp [collapseDash, amendedRuns, ha, had, ih]

theorem amendedRuns_head_of_alnum {b : Char} (rest : List Char)
    (h : isLowerAlnum b = true) :
    (amendedRuns (b :: rest)).head? = some b := by
  cases rest <;> simp [amendedRuns, h]

theorem amendedRuns_chain : ∀ l : List Char,
    (amendedRuns l).Chain' NoTwoDashes
  | [] => by simp [amendedRuns]
  | [c] => by
    cases h : isLowerAlnum c <;> simp [amendedRuns, h]
  | a :: b :: rest => by
    have ih := amendedRuns_chain (b :: rest)
    cases ha : isLowerAlnum a
    · cases hb : isLowerAlnum b
      · simpa [amendedRuns, ha, hb] using ih
      · rw [show amendedRuns (a :: b :: rest)
            = '-' :: amendedRuns (b :: rest) by simp [amendedRuns, ha, hb]]
        refine List.chain'_cons'.mpr ⟨?_, ih⟩
        intro y hy
        rw [amendedRuns_head_of_alnum rest hb] at hy
        cases hy
        exact fun hc => alnum_ne_dash hb hc.2
    · rw [show amendedRuns (a :: b :: rest)
          = a :: amendedRuns (b :: rest) by simp [amendedRuns, ha]]
      refine List.chain'_cons'.mpr ⟨?_, ih⟩
      intro y _
      exact fun hc => alnum_ne_dash ha hc.1

/-- On a list with no adjacent hyphens, removing one leading hyphen is the
same as removing the whole (length at most one) leading hyphen run. -/
theorem dropOneLeadDash_eq_dropWhile {y : List Char}
    (h : y.Chain' NoTwoDashes) :
    dropOneLeadDash y = y.dropWhile (fun c => c = '-') := by
  cases y with
  | nil => rfl
  | cons c t =>
    by_cases hc : c = '-'
    · subst hc
      rw [show dropOneLeadDash ('-' :: t) = t by simp [dropOneLeadDash]]
      rw [List.dropWhile_cons]
      simp only [decide_True, if_true]
      cases t with
      | nil => rfl
      | cons d ds =>
        have hd : NoTwoDashes '-' d := by
          have := (List.chain'_cons'.mp h).1 d rfl
          exact this
        have hdne : d ≠ '-' := fun hdd => hd ⟨rfl, hdd⟩
        rw [List.dropWhile_cons]
        simp [hdne]
    · simp [dropOneLeadDash, hc, List.dropWhile_cons]

theorem noTwoDashes_flip {a b : Char} (h : NoTwoDashes a b) :
    NoTwoDashes b a := fun hc => h ⟨hc.2, hc.1⟩

/-- Trailing version of the previous lemma. -/
theorem dropOneTrailDash_eq_dropTrailing {y : List Char}
    (h : y.Chain' NoTwoDashes) :
    dropOneTrailDash y = dropTrailing (fun c => c = '-') y := by
  unfold dropOneTrailDash dropTrailing
  have hrev : y.reverse.Chain' NoTwoDashes := by
    rw [List.chain'_reverse]
    exact h.imp fun _ _ hab => noTwoDashes_flip hab
  rw [dropOneLeadDash_eq_dropWhile hrev]

/-- createSlug agrees everywhere with the amended specification wording
(runs of non-alphanumeric-or-hyphen characters become a single hyphen,
then leading/trailing hyphens are trimmed). -/
theorem createSlug_eq_amendedSlug (url : String) :
    createSlug url = amendedSlug url := by
  unfold createSlug amendedSlug
  by_cases h : strippedPath url = []
  · simp [h]
  · simp only [h, if_neg, ite_false]
    rw [collapseDash_map_clean]
    have hch := amendedRuns_chain ((strippedPath url).map Char.toLower)
    rw [dropOneLeadDash_eq_dropWhile hch]
    have hch2 : ((amendedRuns ((strippedPath url).map Char.toLower)).dropWhile
        (fun c => c = '-')).Chain' NoTwoDashes := by
      rw [← dropOneLeadDash_eq_dropWhile hch]
      cases hy : amendedRuns ((strippedPath url).map Char.toLower) with
      | nil => simp [dropOneLeadDash]
      | cons c t =>
        by_cases hc : c = '-'
        · subst hc
          rw [show dropOneLeadDash ('-' :: t) = t by simp [dropOneLeadDash]]
          exact (hy ▸ hch).tail
        · rw [show dropOneLeadDash (c :: t) = c :: t by simp [dropOneLeadDash, hc]]
          exact hy ▸ hch
    rw [dropOneTrailDash_eq_dropTrailing hch2]

theorem mem_of_mem_dropWhile {p : Char → Bool} :
    ∀ {l : List Char} {c : Char}, c ∈ l.dropWhile p → c ∈ l
  | [], _, h => by simp [List.dropWhile] at h
  | a :: t, c, h => by
    rw [List.dropWhile_cons] at h
    split at h
    · exact List.mem_cons_of_mem a (mem_of_mem_dropWhile h)
    · exact h

theorem mem_of_mem_dropTrailing {p : Char → Bool} {l : List Char} {c : Char}
    (h : c ∈ dropTrailing p l) : c ∈ l := by
  unfold dropTrailing at h
  rw [List.mem_reverse] at h
  have := mem_of_mem_dropWhile h
  rwa [List.mem_reverse] at this

theorem dropWhile_head?_false {p : Char → Bool} :
    ∀ {l : List Char} {c : Char}, (l.dropWhile p).head? = some c → p c = false
  | [], _, h => by simp [List.dropWhile] at h
  | a :: t, c, h => by
    rw [List.dropWhile_cons] at h
    split at h
    · exact dropWhile_head?_false h
    · rename_i hp
      simp only [List.head?_cons, Option.some_inj] at h
      subst h
      exact Bool.of_not_eq_true hp

/-- dropTrailing only removes a suffix: the remainder is an initial segment
of the original list. -/
theorem dropTrailing_append (p : Char → Bool) (z : List Char) :
    ∃ w, z = dropTrailing p z ++ w ∧ ∀ c ∈ w, p c = true := by
  refine ⟨(z.reverse.takeWhile p).reverse, ?_, ?_⟩
  · unfold dropTrailing
    rw [← List.reverse_append, List.takeWhile_append_dropWhile, List.reverse_reverse]
  · intro c hc
    rw [List.mem_reverse] at hc
    exact List.mem_takeWhile_imp hc

theorem dropTrailing_head? {p : Char → Bool} {z : List Char} {c : Char}
    (h : (dropTrailing p z).head? = some c) : z.head? = some c := by
  obtain ⟨w, hw, -⟩ := dropTrailing_append p z
  rw [hw]
  cases hz : dropTrailing p z with
  | nil => rw [hz] at h; simp at h
  | cons d t =>
    rw [hz] at h
    simp only [List.head?_cons, Option.some_inj] at h
    subst h
    simp

theorem dropTrailing_getLast?_false {p : Char → Bool} {z : List Char} {c : Char}
    (h : (dropTrailing p z).getLast? = some c) : p c = false := by
  rw [← List.head?_reverse] at h
  unfold dropTrailing at h
  rw [List.reverse_reverse] at h
  exact dropWhile_head?_false h

theorem amendedRuns_mem : ∀ l : List Char, ∀ c ∈ amendedRuns l,
    isSlugKeep c = true
  | [], c, h => by simp [amendedRuns] at h
  | [d], c, h => by
    cases hd : isLowerAlnum d <;> rw [amendedRuns, hd] at h
    · simp at h
      simp [h, isSlugKeep]
    · simp at h
      simp [h, isSlugKeep, hd]
  | a :: b :: rest, c, h => by
    cases ha : isLowerAlnum a
    · cases hb : isLowerAlnum b
      · rw [show amendedRuns (a :: b :: rest) = amendedRuns (b :: rest) by
          simp [amendedRuns, ha, hb]] at h
        exact amendedRuns_mem (b :: rest) c h
      · rw [show amendedRuns (a :: b :: rest) = '-' :: amendedRuns (b :: rest) by
          simp [amendedRuns, ha, hb]] at h
        rcases List.mem_cons.mp h with h | h
        · simp [h, isSlugKeep]
        · exact amendedRuns_mem (b :: rest) c h
    · rw [show amendedRuns (a :: b :: rest) = a :: amendedRuns (b :: rest) by
        simp [amendedRuns, ha]] at h
      rcases List.mem_cons.mp h with h | h
      · simp [h, isSlugKeep, ha]
      · exact amendedRuns_mem (b :: rest) c h

/-- A non-empty list with no alphanumeric character at all is turned into
the single-hyphen list. -/
theorem amendedRuns_all_junk : ∀ l : List Char, l ≠ [] →
    (∀ c ∈ l, isLowerAlnum c = false) → amendedRuns l = ['-']
  | [], h, _ => absurd rfl h
  | [d], _, hall => by
    rw [amendedRuns, hall d (by simp)]
    simp
  | a :: b :: rest, _, hall => by
    have ha := hall a (by simp)
    have hb := hall b (by simp)
    rw [show amendedRuns (a :: b :: rest) = amendedRuns (b :: rest) by
      simp [amendedRuns, ha, hb]]
    exact amendedRuns_all_junk (b :: rest) (by simp)
      (fun c hc => hall c (List.mem_cons_of_mem a hc))

/-! ### Claim C5 -/

/-- C5 counterexample: on the URL "https://obraabc.org/a--b" the code's
createSlug collapses the pre-existing hyphen run to "a-b", while the
claim's description (only runs of non-alphanumeric-non-hyphen characters
are replaced) leaves "a--b"; so the claimed characterisation of
createSlug is false at this input. -/
theorem createSlug_spec_description_counterexample :
    createSlug "https://obraabc.org/a--b" = "a-b" ∧
    slugSpecDescription "https://obraabc.org/a--b" = "a--b" ∧
    createSlug "https://obraabc.org/a--b" ≠
      slugSpecDescription "https://obraabc.org/a--b" := by
  refine ⟨by decide, by decide, by decide⟩

/-- C5 (amended): slug derivation is a pure, deterministic function of the
URL; slug of the bare base URL is "index"; slug of
"https://obraabc.org/Sobre-Nós/" is "sobre-n-s"; and in general
createSlug equals the amended description: lower-case, replace every
run of characters that are non-alphanumeric or hyphens with a single
hyphen (so hyphen runs also collapse), trim leading/trailing hyphens,
with "index" used when the path after stripping the base URL and
slashes is empty. -/
theorem createSlug_deterministic_and_examples :
    createSlug "https://obraabc.org/" = "index" ∧
    createSlug "https://obraabc.org/Sobre-Nós/" = "sobre-n-s" ∧
    ∀ url : String, createSlug url = amendedSlug url :=
  ⟨by decide, by decide, createSlug_eq_amendedSlug⟩

/-! ### Claim C10 -/

/-- C10: createSlug only ever emits lowercase ASCII letters, digits and
hyphens, never with a leading or trailing hyphen; the "index" fallback
fires exactly on the empty stripped path; and a non-empty stripped path
without a single alphanumeric character produces the empty string. -/
theorem createSlug_charset_and_empty (url : String) :
    (∀ c ∈ (createSlug url).data, isSlugKeep c = true) ∧
    (createSlug url).data.head? ≠ some '-' ∧
    (createSlug url).data.getLast? ≠ some '-' ∧
    (strippedPath url = [] → createSlug url = "index") ∧
    (strippedPath url ≠ [] →
      (∀ c ∈ strippedPath url, isAlnumChar c = false) →
      createSlug url = "") := by
  by_cases h : strippedPath url = []
  · have hs : createSlug url = "index" := by
      unfold createSlug
      simp [h]
    refine ⟨?_, ?_, ?_, fun _ => hs, fun hne _ => absurd h hne⟩
    · rw [hs]; decide
    · rw [hs]; decide
    · rw [hs]; decide
  · have hs : createSlug url = String.mk (dropTrailing (fun c => c = '-')
        ((amendedRuns ((strippedPath url).map Char.toLower)).dropWhile
          (fun c => c = '-'))) := by
      rw [createSlug_eq_amendedSlug]
      unfold amendedSlug
      simp [h]
    refine ⟨?_, ?_, ?_, fun he => absurd he h, ?_⟩
    · intro c hc
      rw [hs] at hc
      have h1 := mem_of_mem_dropTrailing hc
      have h2 := mem_of_mem_dropWhile h1
      exact amendedRuns_mem _ c h2
    · rw [hs]
      intro hc
      have h1 := dropTrailing_head? hc
      have h2 := dropWhile_head?_false h1
      simp at h2
    · rw [hs]
      intro hc
      have h2 := dropTrailing_getLast?_false hc
      simp at h2
    · intro _ hall
      rw [hs]
      have hjunk : amendedRuns ((strippedPath url).map Char.toLower) = ['-'] := by
        refine amendedRuns_all_junk _ ?_ ?_
        · simpa using h
        · intro c hc
          rcases List.mem_map.mp hc with ⟨d, hd, rfl⟩
          have := hall d hd
          simpa [isAlnumChar] using this
      rw [hjunk]
      decide

/-- C10 witness: the URL "https://obraabc.org/++/" has a non-empty stripped
path with no alphanumeric character, and its slug is the empty string
with the charset property. -/
theorem createSlug_charset_and_empty_witness :
    (∀ c ∈ (createSlug "https://obraabc.org/++/").data, isSlugKeep c = true) ∧
    createSlug "https://obraabc.org/++/" = "" :=
  ⟨(createSlug_charset_and_empty "https://obraabc.org/++/").1,
    (createSlug_charset_and_empty "https://obraabc.org/++/").2.2.2.2
      (by decide) (by decide)⟩

/-! ### Claim C6 -/

theorem dropWhile_append_of_all {p : Char → Bool} :
    ∀ {l₁ : List Char} (l₂ : List Char), (∀ c ∈ l₁, p c = true) →
      (l₁ ++ l₂).dropWhile p = l₂.dropWhile p
  | [], _, _ => rfl
  | a :: t, l₂, h => by
    rw [List.cons_append, List.dropWhile_cons]
    simp only [h a (by simp)]
    exact dropWhile_append_of_all l₂ fun c hc => h c (List.mem_cons_of_mem a hc)

theorem dropWhile_append_of_ne_nil {p : Char → Bool} :
    ∀ {l₁ : List Char} (l₂ : List Char), l₁.dropWhile p ≠ [] →
      (l₁ ++ l₂).dropWhile p = l₁.dropWhile p ++ l₂
  | [], _, h => absurd rfl h
  | a :: t, l₂, h => by
    by_cases hp : p a = true
    · simp only [List.cons_append, List.dropWhile_cons, hp, if_true] at h ⊢
      exact dropWhile_append_of_ne_nil l₂ h
    · simp [List.cons_append, List.dropWhile_cons, hp]

theorem takeWhile_append_of_stop {p : Char → Bool} :
    ∀ {l₁ : List Char} (l₂ : List Char), (∃ c ∈ l₁, p c = false) →
      (l₁ ++ l₂).takeWhile p = l₁.takeWhile p
  | [], _, h => by simp at h
  | a :: t, l₂, h => by
    rw [List.cons_append, List.takeWhile_cons, List.takeWhile_cons]
    by_cases hp : p a = true
    · simp only [hp, if_true]
      obtain ⟨c, hc, hcf⟩ := h
      rcases List.mem_cons.mp hc with rfl | hc
    -- the witness cannot be a itself when p a is true
      · rw [hp] at hcf; cases hcf
      · rw [takeWhile_append_of_stop l₂ ⟨c, hc, hcf⟩]
    · simp [hp]

/-- Appending an all-p suffix does not change "dropWhile then
dropTrailing" (i.e. full trimming by p). -/
theorem trim_append_all {p : Char → Bool} (x w : List Char)
    (hw : ∀ c ∈ w, p c = true) :
    dropTrailing p ((x ++ w).dropWhile p) = dropTrailing p (x.dropWhile p) := by
  by_cases hx : x.dropWhile p = []
  · have hxall : ∀ c ∈ x, p c = true := List.dropWhile_eq_nil_iff.mp hx
    rw [dropWhile_append_of_all w hxall, hx]
    rw [List.dropWhile_eq_nil_iff.mpr hw]
  · rw [dropWhile_append_of_ne_nil w hx]
    unfold dropTrailing
    rw [List.reverse_append]
    rw [dropWhile_append_of_all _ (by simpa using hw)]

/-- Trimming the trailing p-run first does not change full trimming. -/
theorem trim_dropTrailing {p : Char → Bool} (z : List Char) :
    dropTrailing p ((dropTrailing p z).dropWhile p)
      = dropTrailing p (z.dropWhile p) := by
  obtain ⟨w, hzw, hw⟩ := dropTrailing_append p z
  conv_rhs => rw [hzw]
  rw [trim_append_all _ w hw]

theorem ws_dash : isWs '-' = false := by decide

theorem takeWhile_eq_self_of_not_mem {sep : Char} {l : List Char}
    (h : sep ∉ l) : l.takeWhile (fun c => c ≠ sep) = l := by
  rw [List.takeWhile_eq_self_iff]
  intro x hx
  simp only [ne_eq, decide_eq_true_eq]
  rintro rfl
  exact h hx

/-- C6 (amended): cleanTitle removes everything from the first "|" onward,
then everything from the first "-" onward (a hyphen anywhere in the
title counts, including inside a word), then trims whitespace: the
result is the trimmed text before the first "|"-or-"-" separator. -/
theorem cleanTitle_eq_take_before (title : String) :
    cleanTitle title = String.mk (jsTrim
      ((title.data.takeWhile (fun c => c ≠ '|')).takeWhile (fun c => c ≠ '-'))) := by
  unfold cleanTitle
  congr 1
  set l := title.data with hl
  show jsTrim (stripSepToEnd '-' (stripSepToEnd '|' l))
      = jsTrim ((l.takeWhile (fun c => c ≠ '|')).takeWhile (fun c => c ≠ '-'))
  by_cases h1 : '|' ∈ l
  · rw [show stripSepToEnd '|' l
        = dropTrailing isWs (l.takeWhile (fun c => c ≠ '|')) by
      simp [stripSepToEnd, h1]]
    set A := l.takeWhile (fun c => c ≠ '|') with hA
    obtain ⟨w, hAw, hwall⟩ := dropTrailing_append isWs A
    by_cases h2 : '-' ∈ dropTrailing isWs A
    · rw [show stripSepToEnd '-' (dropTrailing isWs A)
          = dropTrailing isWs ((dropTrailing isWs A).takeWhile (fun c => c ≠ '-'))
          by simp [stripSepToEnd, h2]]
      have hAtake : A.takeWhile (fun c => c ≠ '-')
          = (dropTrailing isWs A).takeWhile (fun c => c ≠ '-') := by
        conv_lhs => rw [hAw]
        exact takeWhile_append_of_stop w ⟨'-', h2, by simp⟩
      rw [hAtake]
      unfold jsTrim
      exact trim_dropTrailing _
    · rw [show stripSepToEnd '-' (dropTrailing isWs A)
          = dropTrailing isWs A by simp [stripSepToEnd, h2]]
      have hnw : '-' ∉ w := fun hmem => by
        have := hwall '-' hmem
        rw [ws_dash] at this
        cases this
      have hnA : '-' ∉ A := by
        rw [hAw]
        intro hmem
        rcases List.mem_append.mp hmem with hm | hm
        · exact h2 hm
        · exact hnw hm
      rw [takeWhile_eq_self_of_not_mem hnA]
      conv_rhs => rw [hAw]
      unfold jsTrim
      exact (trim_append_all _ w hwall).symm
  · rw [show stripSepToEnd '|' l = l by simp [stripSepToEnd, h1]]
    rw [takeWhile_eq_self_of_not_mem h1]
    by_cases h2 : '-' ∈ l
    · rw [show stripSepToEnd '-' l
          = dropTrailing isWs (l.takeWhile (fun c => c ≠ '-')) by
        simp [stripSepToEnd, h2]]
      unfold jsTrim
      exact trim_dropTrailing _
    · rw [show stripSepToEnd '-' l = l by simp [stripSepToEnd, h2]]
      rw [takeWhile_eq_self_of_not_mem h2]

/-- C6 counterexample: the title "Covid-19 Update | Site" carries the
trailing "| Site" site-name suffix, whose preceding text is
"Covid-19 Update"; cleanTitle nevertheless returns "Covid", because the
second replace truncates at the intra-word hyphen.  So the text before
the trailing suffix is not preserved unchanged. -/
theorem cleanTitle_prefix_counterexample :
    cleanTitle "Covid-19 Update | Site" = "Covid" ∧
    cleanTitle "Covid-19 Update | Site" ≠ "Covid-19 Update" := by
  refine ⟨by decide, by decide⟩

/-! ### Claim C7 -/

/-- C7: the category rules are tested in a fixed order on the lower-cased
URL and title, the first match wins and the result is always exactly
one of the six categories; in particular any URL containing "/blog/"
is classified "article" whatever else (such as "/contato/") the URL or
title contains, because the blog pattern is tested first. -/
theorem determineContentType_first_rule_wins :
    (∀ url title : String, jsIncludes (jsToLower url) "/blog/".data = true →
      determineContentType url title = "article") ∧
    (∀ url title : String, determineContentType url title ∈
      ["article", "service", "about", "contact", "resource", "page"]) := by
  constructor
  · intro url title h
    unfold determineContentType
    simp [h]
  · intro url title
    unfold determineContentType
    dsimp only
    split
    · decide
    · split
      · decide
      · split
        · decide
        · split
          · decide
          · split
            · decide
            · decide

/-- C7 witness: a URL containing both "/blog/" and "/contato/" segments is
classified "article". -/
theorem determineContentType_first_rule_wins_witness :
    jsIncludes (jsToLower "https://obraabc.org/blog/x/contato/")
      "/contato/".data = true ∧
    determineContentType "https://obraabc.org/blog/x/contato/" "Contacto"
      = "article" :=
  ⟨by decide,
    determineContentType_first_rule_wins.1
      "https://obraabc.org/blog/x/contato/" "Contacto" (by decide)⟩

/-! ### Claim C8 -/

/-- C8: a URL ending in ".pdf" (after lower-casing) is excluded whatever
the title and content are; and a page titled "1920x1080" is excluded
whatever the URL and content are (in particular with no asset
extension on the URL and minimal content). -/
theorem isValidContentPage_exclusions :
    (∀ (url title : String) (content : Option String),
      jsEndsWith (jsToLower url) ".pdf".data = true →
      isValidContentPage url title content = false) ∧
    (∀ (url : String) (content : Option String),
      isValidContentPage url "1920x1080" content = false) := by
  constructor
  · intro url title content h
    have hext : assetExtensions.any
        (fun e => jsEndsWith (jsToLower url) e.data) = true := by
      refine List.any_eq_true.mpr ⟨".pdf", ?_, h⟩
      simp [assetExtensions]
    unfold isValidContentPage
    simp only [hext, if_true]
  · intro url content
    have ht : hasAssetTitle "1920x1080" = true := by decide
    unfold isValidContentPage
    simp [ht]

/-- C8 witness: a concrete .pdf URL is excluded despite an ordinary title,
and a concrete dimensions-only title is excluded despite an
extension-free URL and no content. -/
theorem isValidContentPage_exclusions_witness :
    isValidContentPage "https://obraabc.org/docs/Relatorio.PDF" "Relatório Anual"
      none = false ∧
    isValidContentPage "https://obraabc.org/galeria" "1920x1080" none = false :=
  ⟨isValidContentPage_exclusions.1 "https://obraabc.org/docs/Relatorio.PDF"
      "Relatório Anual" none (by decide),
    isValidContentPage_exclusions.2 "https://obraabc.org/galeria" none⟩

/-! ### Claim C1: crawler lemmas -/

theorem crawlPage_visited_subset (fetch : Nat → Option PageFetch)
    (isInternal : Nat → Bool) (s : CrawlState) (url : Nat) :
    s.visitedUrls ⊆ (crawlPage fetch isInternal s url).visitedUrls := by
  unfold crawlPage
  split
  · exact fun x hx => hx
  · cases fetch url
    · exact fun x hx => List.mem_cons_of_mem _ hx
    · exact fun x hx => List.mem_cons_of_mem _ hx

theorem crawlPage_mem_visited (fetch : Nat → Option PageFetch)
    (isInternal : Nat → Bool) (s : CrawlState) (url : Nat) :
    url ∈ (crawlPage fetch isInternal s url).visitedUrls := by
  unfold crawlPage
  split
  · assumption
  · cases fetch url
    · exact List.mem_cons_self _ _
    · exact List.mem_cons_self _ _

theorem crawlPage_links_subset (fetch : Nat → Option PageFetch)
    (isInternal : Nat → Bool) (s : CrawlState) (url : Nat) :
    s.internalLinks ⊆ (crawlPage fetch isInternal s url).internalLinks := by
  unfold crawlPage
  split
  · exact fun x hx => hx
  · cases fetch url
    · exact fun x hx => hx
    · exact fun x hx => List.mem_append_left _ hx

theorem crawlPage_inv {fetch : Nat → Option PageFetch}
    {isInternal : Nat → Bool} {U : Finset Nat}
    (hU : ∀ u pf, fetch u = some pf → ∀ l ∈ pf.links,
      isInternal l = true → l ∈ U)
    {s : CrawlState} (h : CrawlInv fetch isInternal U s) (url : Nat) :
    CrawlInv fetch isInternal U (crawlPage fetch isInternal s url) := by
  obtain ⟨hnd, hlinks, hproc⟩ := h
  unfold crawlPage
  split
  · exact ⟨hnd, hlinks, hproc⟩
  · rename_i hnv
    cases hf : fetch url with
    | none =>
      refine ⟨List.nodup_cons.mpr ⟨hnv, hnd⟩, hlinks, ?_⟩
      intro u hu pf hpf l hl hi
      rcases List.mem_cons.mp hu with rfl | hu
      · rw [hf] at hpf; cases hpf
      · exact hproc u hu pf hpf l hl hi
    | some pf =>
      refine ⟨List.nodup_cons.mpr ⟨hnv, hnd⟩, ?_, ?_⟩
      · intro l hlm
        rcases List.mem_append.mp hlm with hlm | hlm
        · exact hlinks l hlm
        · obtain ⟨hml, hil⟩ := List.mem_filter.mp hlm
          exact hU url pf hf l hml hil
      · intro u hu pf' hpf' l hl hi
        rcases List.mem_cons.mp hu with rfl | hu
        · rw [hf] at hpf'
          injection hpf' with hpf'
          subst hpf'
          exact List.mem_append_right _ (List.mem_filter.mpr ⟨hl, hi⟩)
        · exact List.mem_append_left _ (hproc u hu pf' hpf' l hl hi)

theorem crawlBatch_visited_subset (fetch : Nat → Option PageFetch)
    (isInternal : Nat → Bool) :
    ∀ (batch : List Nat) (s : CrawlState),
      s.visitedUrls ⊆ (crawlBatch fetch isInternal s batch).visitedUrls
  | [], _ => fun _ hx => hx
  | u :: rest, s => fun _ hx =>
    crawlBatch_visited_subset fetch isInternal rest _
      (crawlPage_visited_subset fetch isInternal s u hx)

theorem crawlBatch_inv {fetch : Nat → Option PageFetch}
    {isInternal : Nat → Bool} {U : Finset Nat}
    (hU : ∀ u pf, fetch u = some pf → ∀ l ∈ pf.links,
      isInternal l = true → l ∈ U) :
    ∀ (batch : List Nat) {s : CrawlState},
      CrawlInv fetch isInternal U s →
      CrawlInv fetch isInternal U (crawlBatch fetch isInternal s batch)
  | [], _, h => h
  | u :: rest, _, h => crawlBatch_inv hU rest (crawlPage_inv hU h u)

theorem crawlBatch_mem_visited (fetch : Nat → Option PageFetch)
    (isInternal : Nat → Bool) :
    ∀ (batch : List Nat) (s : CrawlState) (u : Nat), u ∈ batch →
      u ∈ (crawlBatch fetch isInternal s batch).visitedUrls
  | [], _, _, h => absurd h (List.not_mem_nil _)
  | v :: rest, s, u, h => by
    rcases List.mem_cons.mp h with rfl | h
    · exact crawlBatch_visited_subset fetch isInternal rest _
        (crawlPage_mem_visited fetch isInternal s u)
    · exact crawlBatch_mem_visited fetch isInternal rest _ u h

theorem mem_frontier {s : CrawlState} {x : Nat} :
    x ∈ frontier s ↔ x ∈ s.internalLinks ∧ x ∉ s.visitedUrls := by
  unfold frontier
  rw [List.mem_filter]
  simp [List.elem_iff]

theorem unvisitedCount_lt {fetch : Nat → Option PageFetch}
    {isInternal : Nat → Bool} {U : Finset Nat} {s : CrawlState}
    (hInv : CrawlInv fetch isInternal U s) (hne : frontier s ≠ []) :
    unvisitedCount U (crawlBatch fetch isInternal s (frontier s))
      < unvisitedCount U s := by
  obtain ⟨f₀, rest, hfr⟩ := List.exists_cons_of_ne_nil hne
  have hf₀ : f₀ ∈ frontier s := by rw [hfr]; exact List.mem_cons_self _ _
  obtain ⟨hf₀l, hf₀nv⟩ := mem_frontier.mp hf₀
  have hf₀U : f₀ ∈ U := hInv.2.1 f₀ hf₀l
  have hf₀v : f₀ ∈ (crawlBatch fetch isInternal s (frontier s)).visitedUrls :=
    crawlBatch_mem_visited fetch isInternal (frontier s) s f₀ hf₀
  apply Finset.card_lt_card
  rw [Finset.ssubset_iff_of_subset]
  · exact ⟨f₀, Finset.mem_filter.mpr ⟨hf₀U, hf₀nv⟩,
      fun hmem => (Finset.mem_filter.mp hmem).2 hf₀v⟩
  · intro x hx
    obtain ⟨hxU, hxnv⟩ := Finset.mem_filter.mp hx
    exact Finset.mem_filter.mpr ⟨hxU,
      fun hv => hxnv (crawlBatch_visited_subset fetch isInternal _ s hv)⟩

theorem frontier_eq_nil_of_count_zero {U : Finset Nat} {s : CrawlState}
    (hInv : ∀ l ∈ s.internalLinks, l ∈ U)
    (hc : unvisitedCount U s = 0) : frontier s = [] := by
  rw [List.eq_nil_iff_forall_not_mem]
  intro x hx
  obtain ⟨hxl, hxnv⟩ := mem_frontier.mp hx
  have hxU : x ∈ U := hInv x hxl
  have : x ∈ U.filter (fun u => u ∉ s.visitedUrls) :=
    Finset.mem_filter.mpr ⟨hxU, hxnv⟩
  rw [unvisitedCount, Finset.card_eq_zero] at hc
  rw [hc] at this
  exact absurd this (Finset.not_mem_empty x)

theorem crawlLoop_reaches_empty {fetch : Nat → Option PageFetch}
    {isInternal : Nat → Bool} {U : Finset Nat}
    (hU : ∀ u pf, fetch u = some pf → ∀ l ∈ pf.links,
      isInternal l = true → l ∈ U) :
    ∀ (fuel : Nat) (s : CrawlState), CrawlInv fetch isInternal U s →
      unvisitedCount U s ≤ fuel →
      CrawlInv fetch isInternal U (crawlLoop fetch isInternal fuel s) ∧
      frontier (crawlLoop fetch isInternal fuel s) = [] ∧
      s.visitedUrls ⊆ (crawlLoop fetch isInternal fuel s).visitedUrls
  | 0, s, hInv, hc => by
    refine ⟨hInv, ?_, fun x hx => hx⟩
    exact frontier_eq_nil_of_count_zero hInv.2.1 (Nat.le_zero.mp hc)
  | fuel + 1, s, hInv, hc => by
    rw [crawlLoop]
    by_cases hfr : (frontier s).isEmpty
    · rw [if_pos hfr]
      exact ⟨hInv, List.isEmpty_iff.mp hfr, fun x hx => hx⟩
    · rw [if_neg hfr]
      have hne : frontier s ≠ [] := fun h => hfr (by rw [h]; rfl)
      have hlt := unvisitedCount_lt hInv hne
      have hrec := crawlLoop_reaches_empty hU fuel
        (crawlBatch fetch isInternal s (frontier s))
        (crawlBatch_inv hU (frontier s) hInv)
        (Nat.le_of_lt_succ (Nat.lt_of_lt_of_le hlt hc))
      exact ⟨hrec.1, hrec.2.1,
        fun x hx => hrec.2.2
          (crawlBatch_visited_subset fetch isInternal (frontier s) s hx)⟩

theorem links_visited_of_frontier_nil {s : CrawlState}
    (h : frontier s = []) : ∀ l ∈ s.internalLinks, l ∈ s.visitedUrls := by
  intro l hl
  by_contra hnv
  have : l ∈ frontier s := mem_frontier.mpr ⟨hl, hnv⟩
  rw [h] at this
  exact absurd this (List.not_mem_nil l)

theorem reach_mem_visited {fetch : Nat → Option PageFetch}
    {isInternal : Nat → Bool} {base : Nat} {U : Finset Nat} {r : CrawlState}
    (hInv : CrawlInv fetch isInternal U r) (hfr : frontier r = [])
    (hbase : base ∈ r.visitedUrls) :
    ∀ u, Reach fetch isInternal base u → u ∈ r.visitedUrls := by
  intro u hu
  induction hu with
  | base => exact hbase
  | step _ hf hl hi ih =>
    exact links_visited_of_frontier_nil hfr _ (hInv.2.2 _ ih _ hf _ hl hi)

/-! ### Claim C1 -/

/-- C1: over any finite same-origin universe U closed under the link
extraction, crawlSite with fuel at least the size of U records each URL
at most once (the visited list has no duplicates), ends with an empty
frontier (the loop exit condition), and has visited every URL reachable
from the start URL through same-origin links. -/
theorem crawlSite_visits_reachable_once_and_terminates
    (fetch : Nat → Option PageFetch) (isInternal : Nat → Bool)
    (base : Nat) (U : Finset Nat) (fuel : Nat)
    (hU : ∀ u pf, fetch u = some pf → ∀ l ∈ pf.links,
      isInternal l = true → l ∈ U)
    (hfuel : U.card ≤ fuel) :
    (crawlSite fetch isInternal base fuel).visitedUrls.Nodup ∧
    frontier (crawlSite fetch isInternal base fuel) = [] ∧
    ∀ u, Reach fetch isInternal base u →
      u ∈ (crawlSite fetch isInternal base fuel).visitedUrls := by
  have hinit : CrawlInv fetch isInternal U initialCrawlState := by
    refine ⟨List.nodup_nil, ?_, ?_⟩
    · intro l hl; exact absurd hl (List.not_mem_nil l)
    · intro u hu; exact absurd hu (List.not_mem_nil u)
  have h₁ := crawlPage_inv hU hinit base
  have hcount : unvisitedCount U (crawlPage fetch isInternal initialCrawlState base)
      ≤ fuel :=
    Nat.le_trans (Finset.card_filter_le _ _) hfuel
  have hloop := crawlLoop_reaches_empty hU fuel _ h₁ hcount
  refine ⟨hloop.1.1, hloop.2.1, ?_⟩
  exact reach_mem_visited hloop.1 hloop.2.1
    (hloop.2.2 (crawlPage_mem_visited fetch isInternal initialCrawlState base))

/-- C1 witness: on the concrete cyclic graph exFetch with universe
findable from 0, the crawl visits without duplicates, empties the
frontier, and reaches URL 2 (linked from the successfully fetched
page 0). -/
theorem crawlSite_visits_reachable_once_and_terminates_witness :
    (crawlSite exFetch exInternal 0 3).visitedUrls.Nodup ∧
    frontier (crawlSite exFetch exInternal 0 3) = [] ∧
    2 ∈ (crawlSite exFetch exInternal 0 3).visitedUrls := by
  have hU : ∀ u pf, exFetch u = some pf → ∀ l ∈ pf.links,
      exInternal l = true → l ∈ ({0, 1, 2} : Finset Nat) := by
    intro u pf hf l hl _
    unfold exFetch at hf
    by_cases h0 : u = 0
    · rw [if_pos h0] at hf
      injection hf with hf
      subst hf
      simp at hl
      rcases hl with rfl | rfl <;> decide
    · rw [if_neg h0] at hf
      by_cases h1 : u = 1
      · rw [if_pos h1] at hf
        injection hf with hf
        subst hf
        simp at hl
        rcases hl with rfl | rfl <;> decide
      · rw [if_neg h1] at hf
        cases hf
  have h := crawlSite_visits_reachable_once_and_terminates exFetch exInternal
    0 ({0, 1, 2} : Finset Nat) 3 hU (by decide)
  refine ⟨h.1, h.2.1, h.2.2 2 ?_⟩
  exact @Reach.step exFetch exInternal 0 0 2 ⟨[1, 2], [7]⟩ Reach.base rfl
    (by decide) rfl

/-! ### Claim C3 -/

theorem crawlPage_accounted {fetch : Nat → Option PageFetch}
    {isInternal : Nat → Bool} {s : CrawlState}
    (h : CrawlAccounted s) (url : Nat) :
    CrawlAccounted (crawlPage fetch isInternal s url) := by
  intro x
  unfold crawlPage
  split
  · exact h x
  · cases fetch url with
    | none =>
      simp only [List.mem_cons, List.mem_append, List.mem_singleton, h x]
      tauto
    | some pf =>
      simp only [List.mem_cons, List.mem_append, List.mem_singleton, h x]
      tauto

theorem crawlBatch_accounted {fetch : Nat → Option PageFetch}
    {isInternal : Nat → Bool} :
    ∀ (batch : List Nat) {s : CrawlState}, CrawlAccounted s →
      CrawlAccounted (crawlBatch fetch isInternal s batch)
  | [], _, h => h
  | u :: rest, _, h => crawlBatch_accounted rest (crawlPage_accounted h u)

theorem crawlLoop_accounted {fetch : Nat → Option PageFetch}
    {isInternal : Nat → Bool} :
    ∀ (fuel : Nat) {s : CrawlState}, CrawlAccounted s →
      CrawlAccounted (crawlLoop fetch isInternal fuel s)
  | 0, _, h => h
  | fuel + 1, s, h => by
    rw [crawlLoop]
    split
    · exact h
    · exact crawlLoop_accounted fuel (crawlBatch_accounted (frontier s) h)

theorem processPage_fold_characterize (ext : PageData → Except String String) :
    ∀ (l : List PageData) (s : ProcState),
      (l.foldl (processPage ext) s).processedPages
        = s.processedPages ++ l.filterMap (okEntry ext) ∧
      (l.foldl (processPage ext) s).errorLog
        = s.errorLog ++ l.filterMap (errEntry ext)
  | [], s => by simp
  | p :: rest, s => by
    have ih := processPage_fold_characterize ext rest (processPage ext s p)
    rw [List.foldl_cons]
    cases hm : ext p with
    | error e =>
      have hstep : processPage ext s p = { s with errorLog := s.errorLog ++ [p.url] } := by
        unfold processPage
        rw [hm]
      have hok : okEntry ext p = none := by unfold okEntry; rw [hm]
      have herr : errEntry ext p = some p.url := by unfold errEntry; rw [hm]
      rw [hstep] at ih
      refine ⟨?_, ?_⟩
      · rw [hstep, ih.1, List.filterMap_cons, hok]
      · rw [hstep, ih.2, List.filterMap_cons, herr]
        simp
    | ok v =>
      have hstep : processPage ext s p = { s with processedPages :=
          s.processedPages ++
            [⟨createSlug p.url, determineContentType p.url p.title, p.url⟩] } := by
        unfold processPage
        rw [hm]
      have hok : okEntry ext p
          = some ⟨createSlug p.url, determineContentType p.url p.title, p.url⟩ := by
        unfold okEntry; rw [hm]
      have herr : errEntry ext p = none := by unfold errEntry; rw [hm]
      rw [hstep] at ih
      refine ⟨?_, ?_⟩
      · rw [hstep, ih.1, List.filterMap_cons, hok]
        simp
      · rw [hstep, ih.2, List.filterMap_cons, herr]

/-- C3: no error is silently dropped.  In the content-processing stage the
output state is fully characterised page by page: every content-worthy
page either yields a processedPages entry or has its URL appended to
the error log, and a failing page changes nothing else — the remaining
pages are processed exactly as if it had not failed.  In the crawl
stage every URL ever visited ends up either among the page records or
in the crawl error list that the summary reports. -/
theorem no_error_silently_dropped :
    (∀ (ext : PageData → Except String String) (pages : List PageData),
      (processAllContent ext pages).processedPages
        = (pages.filter (fun p =>
            isValidContentPage p.url p.title p.contentMain)).filterMap
              (okEntry ext) ∧
      (processAllContent ext pages).errorLog
        = (pages.filter (fun p =>
            isValidContentPage p.url p.title p.contentMain)).filterMap
              (errEntry ext)) ∧
    (∀ (fetch : Nat → Option PageFetch) (isInternal : Nat → Bool)
        (base fuel x : Nat),
      x ∈ (crawlSite fetch isInternal base fuel).visitedUrls ↔
        x ∈ (crawlSite fetch isInternal base fuel).pagesData ∨
          x ∈ (crawlSite fetch isInternal base fuel).errors) := by
  constructor
  · intro ext pages
    have h := processPage_fold_characterize ext
      (pages.filter (fun p => isValidContentPage p.url p.title p.contentMain))
      ⟨[], []⟩
    unfold processAllContent
    simpa using h
  · intro fetch isInternal base fuel x
    have hinit : CrawlAccounted initialCrawlState := by
      intro y
      simp [initialCrawlState]
    exact crawlLoop_accounted fuel
      (crawlPage_accounted hinit base) x

/-! ### Claim C2 -/

/-- C2 counterexample: the destination filename is not a deterministic
function of the URL's path - the appended Date.now() timestamp varies
between calls - so two URLs with the same path-derived base name
("photo.jpg") downloaded at different instants produce two files and
two manifest entries instead of one. -/
theorem processImage_dedup_counterexample :
    pathBasename "/img/photo.jpg".data = pathBasename "/pics/photo.jpg".data ∧
    createSafeFilename "/img/photo.jpg".data 100
      ≠ createSafeFilename "/img/photo.jpg".data 101 ∧
    (processImages (fun _ => true)
      [("https://a.com/img/photo.jpg", 100),
       ("https://b.com/pics/photo.jpg", 101)]).downloadedImages.length = 2 ∧
    (processImages (fun _ => true)
      [("https://a.com/img/photo.jpg", 100),
       ("https://b.com/pics/photo.jpg", 101)]).files.length = 2 := by
  refine ⟨by decide, by decide, by decide, by decide⟩

/-- C2 (amended): the destination filename is derived from the URL's path
plus the Date.now() timestamp of the processing instant, and a download
is skipped only when a file with that exact timestamped name already
exists.  Hence dedup happens only for equal path and equal timestamp:
processing the same URL twice at the same instant downloads once and
records one manifest entry; at different instants each processing
produces its own file and manifest entry (see the counterexample). -/
theorem processImage_dedup_amended (u : String) (p : List Char) (now : Nat)
    (ok : String → Bool) (h1 : ¬u = "") (h2 : "data:".data.isPrefixOf u.data = false)
    (h3 : jsUrlPathname u = some p) (h4 : ok u = true) :
    (processImages ok [(u, now), (u, now)]).downloadedImages.length = 1 ∧
    (processImages ok [(u, now), (u, now)]).files
      = [createSafeFilename p now] := by
  have hpre : ¬(u = "" ∨ "data:".data <+: u.data) := by
    rintro (h | h)
    · exact h1 h
    · rw [← List.isPrefixOf_iff_prefix, h2] at h
      cases h
  unfold processImages processImage
  simp only [List.foldl_cons, List.foldl_nil]
  simp [hpre, h3, h4]

/-- C2 witness: the same image URL processed twice at the same timestamp
is downloaded once, with one manifest entry and one destination file. -/
theorem processImage_dedup_amended_witness :
    (processImages (fun _ => true)
      [("https://a.com/img/photo.jpg", 100),
       ("https://a.com/img/photo.jpg", 100)]).downloadedImages.length = 1 ∧
    (processImages (fun _ => true)
      [("https://a.com/img/photo.jpg", 100),
       ("https://a.com/img/photo.jpg", 100)]).files
      = [createSafeFilename "/img/photo.jpg".data 100] :=
  processImage_dedup_amended "https://a.com/img/photo.jpg"
    "/img/photo.jpg".data 100 (fun _ => true)
    (by decide) (by decide) (by decide) rfl

/-! ### Claims C4 and C9: transcoder lemmas -/

theorem string_append_left_cancel {s a b : String} (h : s ++ a = s ++ b) :
    a = b := by
  have hd := congrArg String.data h
  rw [String.data_append, String.data_append] at hd
  have h2 := List.append_cancel_left hd
  cases a
  cases b
  exact congrArg String.mk h2

theorem getFile_setFile_same (fs : List (String × FileContent)) (p : String)
    (c : FileContent) : getFile (setFile fs p c) p = some c := by
  simp [getFile, setFile]

theorem getFile_setFile_other (fs : List (String × FileContent))
    {p q : String} (c : FileContent) (h : q ≠ p) :
    getFile (setFile fs p c) q = getFile fs q := by
  simp [getFile, setFile, h]

theorem variantTargets_names_nodup (base : String) :
    ((variantTargets base).map Prod.snd).Nodup := by
  have hcancel : ∀ (x y : String), x ≠ y → base ++ x ≠ base ++ y :=
    fun x y hxy h => hxy (string_append_left_cancel h)
  simp only [variantTargets, sizes, List.flatMap_cons, List.flatMap_nil,
    List.map_append, List.map_cons, List.map_nil, List.append_nil,
    List.cons_append, List.nil_append]
  simp only [List.nodup_cons, List.mem_cons, List.not_mem_nil, or_false,
    not_or, List.nodup_nil, and_true]
  repeat' apply And.intro
  all_goals first
    | exact hcancel _ _ (by decide)
    | exact not_false

theorem getFile_sharpFold_not_mem (fresh fail : String → Bool) (srcW : Nat) :
    ∀ (ts : List (Option Nat × String))
      (acc : List (String × FileContent) × List Variant) (q : String),
      (∀ t ∈ ts, t.2 ≠ q) →
      getFile (ts.foldl (sharpStep fresh fail srcW) acc).1 q = getFile acc.1 q
  | [], _, _, _ => rfl
  | t :: rest, acc, q, h => by
    rw [List.foldl_cons]
    rw [getFile_sharpFold_not_mem fresh fail srcW rest _ q
      (fun r hr => h r (List.mem_cons_of_mem t hr))]
    have hne : q ≠ t.2 := fun hq => h t (List.mem_cons_self t rest) hq.symm
    unfold sharpStep
    split
    · rfl
    · split
      · exact getFile_setFile_other _ _ hne
      · exact getFile_setFile_other _ _ hne

theorem getFile_sharpFold_mem (fresh fail : String → Bool) (srcW : Nat) :
    ∀ (ts : List (Option Nat × String))
      (acc : List (String × FileContent) × List Variant)
      (t : Option Nat × String), t ∈ ts → (ts.map Prod.snd).Nodup →
      getFile (ts.foldl (sharpStep fresh fail srcW) acc).1 t.2 =
        if fresh t.2 then getFile acc.1 t.2
        else if fail t.2 then some FileContent.truncated
        else some (FileContent.full (variantWidth srcW t.1))
  | [], _, _, hmem, _ => absurd hmem (List.not_mem_nil _)
  | h :: rest, acc, t, hmem, hnd => by
    rw [List.map_cons, List.nodup_cons] at hnd
    obtain ⟨hhn, hndr⟩ := hnd
    rcases List.mem_cons.mp hmem with rfl | hmem
    · rw [List.foldl_cons]
      have hrest : ∀ r ∈ rest, r.2 ≠ t.2 := by
        intro r hr heq
        exact hhn (heq ▸ List.mem_map_of_mem Prod.snd hr)
      rw [getFile_sharpFold_not_mem fresh fail srcW rest _ t.2 hrest]
      unfold sharpStep
      split
      · rfl
      · split
        · exact getFile_setFile_same _ _ _
        · exact getFile_setFile_same _ _ _
    · rw [List.foldl_cons]
      have hne : t.2 ≠ h.2 := by
        intro heq
        exact hhn (heq ▸ List.mem_map_of_mem Prod.snd hmem)
      rw [getFile_sharpFold_mem fresh fail srcW rest _ t hmem hndr]
      have hacc : getFile (sharpStep fresh fail srcW acc h).1 t.2
          = getFile acc.1 t.2 := by
        unfold sharpStep
        split
        · rfl
        · split
          · exact getFile_setFile_other _ _ hne
          · exact getFile_setFile_other _ _ hne
      rw [hacc]

theorem sharpFold_variants (fresh fail : String → Bool) (srcW : Nat) :
    ∀ (ts : List (Option Nat × String))
      (acc : List (String × FileContent) × List Variant),
      (ts.foldl (sharpStep fresh fail srcW) acc).2 =
        acc.2 ++ ts.filterMap (fun t =>
          if fresh t.2 then none
          else if fail t.2 then none
          else some ⟨t.2, variantWidth srcW t.1⟩)
  | [], acc => by simp
  | t :: rest, acc => by
    rw [List.foldl_cons, List.filterMap_cons,
      sharpFold_variants fresh fail srcW rest _]
    unfold sharpStep
    split
    · rfl
    · split
      · rfl
      · simp

/-! ### Claim C4 -/

/-- C4 (amended): every variant write goes directly to the final output
path, with no write-then-rename: when the staleness check does not skip
a target and its encode fails, the destination file at that final path
is left truncated - the previous contents, valid or not, are replaced;
when the encode succeeds the destination holds the complete variant;
only a skipped target keeps its previous contents. -/
theorem optimizeWithSharp_direct_write (fresh fail : String → Bool)
    (srcW : Nat) (fs : List (String × FileContent)) (filename : String)
    (t : Option Nat × String)
    (ht : t ∈ variantTargets (nameNoExt filename)) :
    getFile (optimizeWithSharp fresh fail srcW fs filename).1 t.2 =
      if fresh t.2 then getFile fs t.2
      else if fail t.2 then some FileContent.truncated
      else some (FileContent.full (variantWidth srcW t.1)) :=
  getFile_sharpFold_mem fresh fail srcW _ (fs, []) t ht
    (variantTargets_names_nodup (nameNoExt filename))

/-- C4 counterexample: a previously valid 400-wide "photo-sm.webp" output
is replaced by a truncated file when the regeneration of that variant
fails partway - the claimed write-then-rename protection does not
exist in the code. -/
theorem optimizeWithSharp_truncates_counterexample :
    getFile [("photo-sm.webp", FileContent.full 400)] "photo-sm.webp"
      = some (FileContent.full 400) ∧
    getFile (optimizeWithSharp (fun _ => false)
        (fun n => n == "photo-sm.webp") 2000
        [("photo-sm.webp", FileContent.full 400)] "photo.jpg").1
      "photo-sm.webp" = some FileContent.truncated ∧
    some FileContent.truncated ≠ some (FileContent.full 400) := by
  refine ⟨by decide, by decide, by decide⟩

/-- C4 witness: instantiating the write-behaviour theorem at the -sm WebP
target of photo.jpg with a failing encode. -/
theorem optimizeWithSharp_direct_write_witness :
    getFile (optimizeWithSharp (fun _ => false)
        (fun n => n == "photo-sm.webp") 2000
        [("photo-sm.webp", FileContent.full 400)] "photo.jpg").1
      ("photo" ++ ("-sm" ++ ".webp")) = some FileContent.truncated := by
  have h := optimizeWithSharp_direct_write (fun _ => false)
    (fun n => n == "photo-sm.webp") 2000
    [("photo-sm.webp", FileContent.full 400)] "photo.jpg"
    (some 400, "photo" ++ ("-sm" ++ ".webp")) (by decide)
  rw [h]
  decide

/-! ### Claim C9 -/

/-- C9 (amended): the transcoder never upscales - every variant emitted
for a source of width srcW has width at most srcW (the 800 and 1200
size classes still emit files for a 300-wide source, capped at the
source width) - and one source yields at most 4 x 2 = 8 variants, with
exactly 8 whenever no target is fresh and no encode fails, regardless
of the source width. -/
theorem optimizeWithSharp_no_upscale (fresh fail : String → Bool)
    (srcW : Nat) (fs : List (String × FileContent)) (filename : String) :
    (optimizeWithSharp fresh fail srcW fs filename).2.length ≤ 8 ∧
    (∀ v ∈ (optimizeWithSharp fresh fail srcW fs filename).2,
      v.width ≤ srcW) ∧
    ((∀ n, fresh n = false) → (∀ n, fail n = false) →
      (optimizeWithSharp fresh fail srcW fs filename).2.length = 8) := by
  have hv := sharpFold_variants fresh fail srcW
    (variantTargets (nameNoExt filename)) (fs, [])
  have hlen : (variantTargets (nameNoExt filename)).length = 8 := by
    simp [variantTargets, sizes]
  refine ⟨?_, ?_, ?_⟩
  · unfold optimizeWithSharp
    rw [hv]
    simpa using Nat.le_trans (List.length_filterMap_le _ _) (Nat.le_of_eq hlen)
  · intro v hvmem
    unfold optimizeWithSharp at hvmem
    rw [hv] at hvmem
    simp only [List.nil_append] at hvmem
    obtain ⟨t, -, hsome⟩ := List.mem_filterMap.mp hvmem
    split at hsome
    · cases hsome
    · split at hsome
      · cases hsome
      · injection hsome with hsome
        subst hsome
        cases t.1 with
        | none => exact Nat.le_refl _
        | some w => exact Nat.min_le_right w srcW
  · intro hfresh hfail
    unfold optimizeWithSharp
    rw [hv]
    simp only [List.nil_append, hfresh, hfail, if_false, Bool.false_eq_true]
    rw [show (fun (t : Option Nat × String) =>
          some (⟨t.2, variantWidth srcW t.1⟩ : Variant))
        = some ∘ (fun (t : Option Nat × String) =>
          (⟨t.2, variantWidth srcW t.1⟩ : Variant)) from rfl]
    rw [List.filterMap_eq_map, List.length_map]
    exact hlen

/-- C9 counterexample: a 300px-wide source still yields all 8 variants on
a fresh run - the 800 size class is not skipped, it emits a 300-wide
"-md" file - contradicting "fewer variants when the source is smaller
than a size class". -/
theorem optimizeWithSharp_variant_count_counterexample :
    (optimizeWithSharp (fun _ => false) (fun _ => false) 300 []
      "photo.jpg").2.length = 8 ∧
    ¬(optimizeWithSharp (fun _ => false) (fun _ => false) 300 []
      "photo.jpg").2.length < 8 ∧
    (300 : Nat) < 800 ∧
    (⟨"photo" ++ ("-md" ++ ".webp"), 300⟩ : Variant) ∈
      (optimizeWithSharp (fun _ => false) (fun _ => false) 300 []
        "photo.jpg").2 := by
  refine ⟨by decide, by decide, by decide, by decide⟩

/-- C9 witness: a 300px-wide source on a fresh, error-free run yields
exactly 8 variants, every one of width at most 300. -/
theorem optimizeWithSharp_no_upscale_witness :
    (optimizeWithSharp (fun _ => false) (fun _ => false) 300 []
      "photo.jpg").2.length = 8 ∧
    ∀ v ∈ (optimizeWithSharp (fun _ => false) (fun _ => false) 300 []
      "photo.jpg").2, v.width ≤ 300 :=
  ⟨(optimizeWithSharp_no_upscale (fun _ => false) (fun _ => false) 300 []
      "photo.jpg").2.2 (fun _ => rfl) (fun _ => rfl),
    (optimizeWithSharp_no_upscale (fun _ => false) (fun _ => false) 300 []
      "photo.jpg").2.1⟩

end ObraAbc
